import Mathlib

/-!
Shallow embedding of the s3etag library (src/lib.rs): a chunked MD5 digest
accumulator reproducing the S3 multipart-upload ETag scheme, together with
the MD5 algorithm (RFC 1321) used for per-chunk and combined hashing.
Bytes are modelled as natural numbers below 256; machine words as naturals
reduced modulo 2^32 where the machine arithmetic wraps.
-/

namespace S3Etag

/-! ### MD5 (RFC 1321), the hash used by src/lib.rs via md5::compute -/

/-- Truncate to a 32-bit word. -/
def u32 (x : Nat) : Nat := x % 4294967296

/-- Bitwise NOT on 32-bit words (input below 2^32). -/
def wnot (x : Nat) : Nat := Nat.xor x 4294967295

/-- Left-rotate a 32-bit word by s (0 < s < 32). -/
def rotl (x s : Nat) : Nat := Nat.lor (u32 (Nat.shiftLeft x s)) (Nat.shiftRight x (32 - s))

/-- Per-round left-rotation amounts. -/
def md5S : List Nat :=
  [7, 12, 17, 22, 7, 12, 17, 22, 7, 12, 17, 22, 7, 12, 17, 22,
   5, 9, 14, 20, 5, 9, 14, 20, 5, 9, 14, 20, 5, 9, 14, 20,
   4, 11, 16, 23, 4, 11, 16, 23, 4, 11, 16, 23, 4, 11, 16, 23,
   6, 10, 15, 21, 6, 10, 15, 21, 6, 10, 15, 21, 6, 10, 15, 21]

/-- Per-round additive constants, floor(2^32 * abs(sin(i + 1))). -/
def md5K : List Nat :=
  [0xd76aa478, 0xe8c7b756, 0x242070db, 0xc1bdceee,
   0xf57c0faf, 0x4787c62a, 0xa8304613, 0xfd469501,
   0x698098d8, 0x8b44f7af, 0xffff5bb1, 0x895cd7be,
   0x6b901122, 0xfd987193, 0xa679438e, 0x49b40821,
   0xf61e2562, 0xc040b340, 0x265e5a51, 0xe9b6c7aa,
   0xd62f105d, 0x02441453, 0xd8a1e681, 0xe7d3fbc8,
   0x21e1cde6, 0xc33707d6, 0xf4d50d87, 0x455a14ed,
   0xa9e3e905, 0xfcefa3f8, 0x676f02d9, 0x8d2a4c8a,
   0xfffa3942, 0x8771f681, 0x6d9d6122, 0xfde5380c,
   0xa4beea44, 0x4bdecfa9, 0xf6bb4b60, 0xbebfbc70,
   0x289b7ec6, 0xeaa127fa, 0xd4ef3085, 0x04881d05,
   0xd9d4d039, 0xe6db99e5, 0x1fa27cf8, 0xc4ac5665,
   0xf4292244, 0x432aff97, 0xab9423a7, 0xfc93a039,
   0x655b59c3, 0x8f0ccc92, 0xffeff47d, 0x85845dd1,
   0x6fa87e4f, 0xfe2ce6e0, 0xa3014314, 0x4e0811a1,
   0xf7537e82, 0xbd3af235, 0x2ad7d2bb, 0xeb86d391]

/-- One of the 64 MD5 rounds, acting on the state (a, b, c, d); M is the
current 16-word message block. -/
def md5Round (M : List Nat) (st : Nat × Nat × Nat × Nat) (i : Nat) : Nat × Nat × Nat × Nat :=
  let a := st.1
  let b := st.2.1
  let c := st.2.2.1
  let d := st.2.2.2
  let f :=
    if i < 16 then Nat.lor (Nat.land b c) (Nat.land (wnot b) d)
    else if i < 32 then Nat.lor (Nat.land d b) (Nat.land (wnot d) c)
    else if i < 48 then Nat.xor (Nat.xor b c) d
    else Nat.xor c (Nat.lor b (wnot d))
  let g :=
    if i < 16 then i
    else if i < 32 then (5 * i + 1) % 16
    else if i < 48 then (3 * i + 5) % 16
    else (7 * i) % 16
  let tmp := u32 (a + f + md5K.getD i 0 + M.getD g 0)
  (d, u32 (b + rotl tmp (md5S.getD i 0)), b, c)

/-- Process one 16-word block: run the 64 rounds and add the result to the
incoming state, wrapping at 2^32. -/
def md5Block (st : Nat × Nat × Nat × Nat) (M : List Nat) : Nat × Nat × Nat × Nat :=
  let r := (List.range 64).foldl (md5Round M) st
  (u32 (st.1 + r.1), u32 (st.2.1 + r.2.1), u32 (st.2.2.1 + r.2.2.1), u32 (st.2.2.2 + r.2.2.2))

/-- Fold md5Block over a word stream, 16 words at a time.  The padded
message is always a multiple of 16 words, so the default case only
fires on the empty list. -/
def md5Blocks : Nat × Nat × Nat × Nat → List Nat → Nat × Nat × Nat × Nat
  | st, w0 :: w1 :: w2 :: w3 :: w4 :: w5 :: w6 :: w7 ::
        w8 :: w9 :: w10 :: w11 :: w12 :: w13 :: w14 :: w15 :: rest =>
      md5Blocks (md5Block st [w0, w1, w2, w3, w4, w5, w6, w7, w8, w9, w10, w11, w12, w13, w14, w15]) rest
  | st, _ => st

/-- Group bytes into little-endian 32-bit words. -/
def bytesToWordsLE : List Nat → List Nat
  | b0 :: b1 :: b2 :: b3 :: rest =>
      (b0 + b1 * 256 + b2 * 65536 + b3 * 16777216) :: bytesToWordsLE rest
  | _ => []

/-- The k low-order bytes of n, little-endian. -/
def leBytes : Nat → Nat → List Nat
  | 0, _ => []
  | k + 1, n => (n % 256) :: leBytes k (n / 256)

/-- MD5 padding: a 0x80 byte, zeros to 56 mod 64, then the bit length as
a 64-bit little-endian quantity. -/
def md5Pad (msg : List Nat) : List Nat :=
  let z := (120 - (msg.length + 1) % 64) % 64
  msg ++ 128 :: List.replicate z 0 ++ leBytes 8 (msg.length * 8)

/-- MD5 of a byte sequence: 16 output bytes.  This models md5::compute
from the md5 crate used by src/lib.rs. -/
def md5Bytes (msg : List Nat) : List Nat :=
  let ws := bytesToWordsLE (md5Pad msg)
  let st := md5Blocks (0x67452301, 0xefcdab89, 0x98badcfe, 0x10325476) ws
  leBytes 4 st.1 ++ leBytes 4 st.2.1 ++ leBytes 4 st.2.2.1 ++ leBytes 4 st.2.2.2

/-! ### The Digest value (src/lib.rs, struct Digest) -/

/-- struct Digest { hash: [u8; 16], parts: usize } — the 16 hash bytes are
modelled as a list of naturals (of length 16 for every digest the code
produces). -/
structure Digest where
  hash : List Nat
  parts : Nat
deriving DecidableEq

/-! ### The accumulator (src/lib.rs, struct Context) -/

/-- struct Context: combined_hashes, current_chunk, chunk_size, chunk_count,
total_bytes (total_bytes is a u64 in Rust; modelled as Nat since the code
only ever adds buffer lengths to it). -/
structure Context where
  combined_hashes : List Nat
  current_chunk : List Nat
  chunk_size : Nat
  chunk_count : Nat
  total_bytes : Nat
deriving DecidableEq

/-- Context::with_chunk_size. -/
def Context.with_chunk_size (chunk_size : Nat) : Context :=
  { combined_hashes := []
    current_chunk := []
    chunk_size := chunk_size
    chunk_count := 0
    total_bytes := 0 }

/-- Context::new — default chunk size 8 MiB. -/
def Context.new : Context := Context.with_chunk_size (8 * 1024 * 1024)

/-- Context::with_capacity.  The estimated chunk count only pre-sizes the
combined_hashes allocation in Rust (Vec::with_capacity); allocation
capacity is not part of the abstract state, so the field starts empty
exactly as in with_chunk_size. -/
def Context.with_capacity (chunk_size : Nat) (total_size : Nat) : Context :=
  let _estimated_chunks := (total_size + chunk_size - 1) / chunk_size
  { combined_hashes := []
    current_chunk := []
    chunk_size := chunk_size
    chunk_count := 0
    total_bytes := 0 }

/-- The flush performed inside Context::consume when current_chunk reaches
chunk_size (hash the chunk, append its 16 bytes, clear, count it).  The
same state change is performed by finalize on a final partial chunk. -/
def flushChunk (ctx : Context) : Context :=
  { ctx with
    combined_hashes := ctx.combined_hashes ++ md5Bytes ctx.current_chunk
    current_chunk := []
    chunk_count := ctx.chunk_count + 1 }

/-- The while-loop of Context::consume, fuel-indexed: none means the fuel
ran out before the loop exited.  For a context satisfying the accumulator
invariant (chunk_size positive, current_chunk shorter than chunk_size)
each iteration transfers at least one byte, so fuel equal to the length of
the remaining input always suffices (consumeLoop_eq_foldl below); with
chunk_size zero the Rust loop never terminates on non-empty input, and
correspondingly the model returns none for every fuel
(consumeLoop_zero_chunk_size). -/
def consumeLoop : Nat → Context → List Nat → Option Context
  | _, ctx, [] => some ctx
  | 0, _, _ :: _ => none
  | fuel + 1, ctx, b :: rest =>
      let remaining := b :: rest
      let space_left := ctx.chunk_size - ctx.current_chunk.length
      let to_take := min remaining.length space_left
      let ctx1 := { ctx with current_chunk := ctx.current_chunk ++ remaining.take to_take }
      let remaining1 := remaining.drop to_take
      if ctx1.current_chunk.length = ctx1.chunk_size then
        consumeLoop fuel (flushChunk ctx1) remaining1
      else
        consumeLoop fuel ctx1 remaining1

/-- Context::consume: add the buffer length to total_bytes, then run the
transfer loop.  The loop terminates within data.length iterations whenever
chunk_size is positive and current_chunk is shorter than chunk_size
(consumeLoop_eq_foldl), so the default branch is unreachable for every
context the library can construct and use. -/
def Context.consume (ctx : Context) (data : List Nat) : Context :=
  let ctx0 := { ctx with total_bytes := ctx.total_bytes + data.length }
  (consumeLoop data.length ctx0 data).getD ctx0

/-- Context::finalize: hash a non-empty final partial chunk, then hash the
concatenation of all chunk hashes. -/
def Context.finalize (ctx : Context) : Digest :=
  let ctx1 :=
    if ctx.current_chunk.isEmpty then ctx
    else
      { ctx with
        combined_hashes := ctx.combined_hashes ++ md5Bytes ctx.current_chunk
        chunk_count := ctx.chunk_count + 1 }
  { hash := md5Bytes ctx1.combined_hashes
    parts := ctx1.chunk_count }

/-- Context::total_bytes accessor. -/
def Context.total_bytes_of (ctx : Context) : Nat := ctx.total_bytes

/-- The write method of the std::io::Write impl for Context: consume the
buffer and report its full length as written, never an error (the error
type of std::io::Result is modelled as String). -/
def Context.write (ctx : Context) (buf : List Nat) : Context × Except String Nat :=
  (ctx.consume buf, Except.ok buf.length)

/-- The flush method of the std::io::Write impl for Context: Ok(()) and no
state change. -/
def Context.io_flush (ctx : Context) : Context × Except String Unit :=
  (ctx, Except.ok ())

/-- Free function compute: default context, one consume, finalize. -/
def compute (data : List Nat) : Digest :=
  (Context.new.consume data).finalize

/-- Free function compute_with_chunk_size. -/
def compute_with_chunk_size (data : List Nat) (chunk_size : Nat) : Digest :=
  ((Context.with_chunk_size chunk_size).consume data).finalize

/-- A sequence of consume calls, in order. -/
def runConsumes (ctx : Context) (calls : List (List Nat)) : Context :=
  calls.foldl Context.consume ctx

/-- A sequence of calls through the write sink, in order. -/
def runWrites (ctx : Context) (calls : List (List Nat)) : Context :=
  calls.foldl (fun c buf => (c.write buf).1) ctx

/-! ### Digest formatting (src/lib.rs, LowerHex / UpperHex / Display impls) -/

/-- The decimal digit character for n < 10. -/
def digitChar (n : Nat) : Char := Char.ofNat (48 + n)

/-- Lowercase hex digit character for n < 16 (Rust {:02x}). -/
def hexDigitLower (n : Nat) : Char :=
  if n < 10 then Char.ofNat (48 + n) else Char.ofNat (87 + n)

/-- Uppercase hex digit character for n < 16 (Rust {:02X}). -/
def hexDigitUpper (n : Nat) : Char :=
  if n < 10 then Char.ofNat (48 + n) else Char.ofNat (55 + n)

/-- The two lowercase hex digits of a byte, as printed by {:02x}. -/
def byteHexLower (b : Nat) : List Char := [hexDigitLower (b / 16), hexDigitLower (b % 16)]

/-- The two uppercase hex digits of a byte, as printed by {:02X}. -/
def byteHexUpper (b : Nat) : List Char := [hexDigitUpper (b / 16), hexDigitUpper (b % 16)]

/-- Decimal rendering of a natural, most significant digit first, fuel
indexed so that it is structurally recursive (fuel n always suffices,
enforced by natDecimal below).  Models Rust Display for usize. -/
def natDecimalAux : Nat → Nat → List Char
  | 0, n => [digitChar (n % 10)]
  | fuel + 1, n =>
      if n < 10 then [digitChar n]
      else natDecimalAux fuel (n / 10) ++ [digitChar (n % 10)]

/-- Decimal rendering of a natural, no leading zeros ("0" for zero). -/
def natDecimal (n : Nat) : List Char := natDecimalAux n n

/-- The LowerHex rendering of a Digest: each hash byte as two lowercase hex
digits, then '-' and the decimal parts count.  The Display impl forwards
to LowerHex, so this is also the Display form. -/
def Digest.toLowerHex (d : Digest) : String :=
  String.mk ((d.hash.map byteHexLower).flatten ++ '-' :: natDecimal d.parts)

/-- The UpperHex rendering of a Digest. -/
def Digest.toUpperHex (d : Digest) : String :=
  String.mk ((d.hash.map byteHexUpper).flatten ++ '-' :: natDecimal d.parts)

/-! ### The ETag textual shape (the regex of the spec) -/

/-- Is the character one of 0-9? -/
def isDigitChar (c : Char) : Bool := 48 ≤ c.toNat && c.toNat ≤ 57

/-- Is the character one of 0-9 or a-f? -/
def isLowerHexChar (c : Char) : Bool :=
  (48 ≤ c.toNat && c.toNat ≤ 57) || (97 ≤ c.toNat && c.toNat ≤ 102)

/-- Is the character one of 0-9 or A-F? -/
def isUpperHexChar (c : Char) : Bool :=
  (48 ≤ c.toNat && c.toNat ≤ 57) || (65 ≤ c.toNat && c.toNat ≤ 70)

/-- Does the character list match the regex fragment [1-9][0-9]* ? -/
def decimalNoZero : List Char → Bool
  | [] => false
  | c :: rest => 49 ≤ c.toNat && c.toNat ≤ 57 && rest.all isDigitChar

/-- Does the character list match the regex fragment (0|[1-9][0-9]*) ? -/
def decimalCanonical : List Char → Bool
  | [] => false
  | c :: rest =>
      (if c = '0' then rest.isEmpty else 49 ≤ c.toNat && c.toNat ≤ 57) && rest.all isDigitChar

/-- Does the string match a 32-character hex prefix, a dash, and a decimal
tail accepted by dec?  Instantiated below with the two decimal shapes to
express the spec regexes. -/
def matchesEtagShape (hexOk : Char → Bool) (dec : List Char → Bool) (s : String) : Bool :=
  (s.data.take 32).all hexOk &&
    match s.data.drop 32 with
    | '-' :: rest => dec rest
    | _ => false

/-- The spec regex for the lowercase form, exactly as written there. -/
def matchesEtagLowerSpec (s : String) : Bool := matchesEtagShape isLowerHexChar decimalNoZero s

/-- The spec regex for the uppercase form, exactly as written there. -/
def matchesEtagUpperSpec (s : String) : Bool := matchesEtagShape isUpperHexChar decimalNoZero s

/-- The lowercase shape with the zero parts count also admitted. -/
def matchesEtagLower (s : String) : Bool := matchesEtagShape isLowerHexChar decimalCanonical s

/-- The uppercase shape with the zero parts count also admitted. -/
def matchesEtagUpper (s : String) : Bool := matchesEtagShape isUpperHexChar decimalCanonical s

/-! ### Byte-at-a-time reformulation of consume, used in the proofs -/

/-- Push a single byte: append it to current_chunk and flush when the
chunk is exactly full.  Folding step1 over the input coincides with the
slice-copying loop of Context::consume on every context satisfying the
accumulator invariant (consumeLoop_eq_foldl). -/
def step1 (ctx : Context) (b : Nat) : Context :=
  let ctx1 := { ctx with current_chunk := ctx.current_chunk ++ [b] }
  if ctx1.current_chunk.length = ctx1.chunk_size then flushChunk ctx1 else ctx1

/-- The accumulator invariant needed for consume to make progress: the
chunk size is positive and the partial chunk is strictly shorter than it.
It holds on construction and is preserved by consume. -/
def Inv (ctx : Context) : Prop :=
  0 < ctx.chunk_size ∧ ctx.current_chunk.length < ctx.chunk_size

instance (ctx : Context) : Decidable (Inv ctx) := by
  unfold Inv
  infer_instance

/-- The invariant stated by the spec: combined_hashes holds 16 bytes per
counted chunk and the partial chunk is strictly below the chunk size. -/
def chunkInv (ctx : Context) : Prop :=
  ctx.combined_hashes.length = ctx.chunk_count * 16 ∧
    ctx.current_chunk.length < ctx.chunk_size

instance (ctx : Context) : Decidable (chunkInv ctx) := by
  unfold chunkInv
  infer_instance

/-! ### Shape of MD5 output: 16 bytes, each below 256 -/

theorem leBytes_length (k : Nat) : ∀ n : Nat, (leBytes k n).length = k := by
  induction k with
  | zero => intro n; rfl
  | succ k ih => intro n; simp [leBytes, ih]

theorem leBytes_lt (k : Nat) : ∀ (n : Nat), ∀ b ∈ leBytes k n, b < 256 := by
  induction k with
  | zero => intro n b hb; simp [leBytes] at hb
  | succ k ih =>
      intro n b hb
      simp only [leBytes, List.mem_cons] at hb
      rcases hb with h | h
      · subst h; exact Nat.mod_lt _ (by omega)
      · exact ih _ b h

theorem md5Bytes_length (msg : List Nat) : (md5Bytes msg).length = 16 := by
  unfold md5Bytes
  simp [leBytes_length]

theorem md5Bytes_lt (msg : List Nat) : ∀ b ∈ md5Bytes msg, b < 256 := by
  unfold md5Bytes
  intro b hb
  simp only [List.mem_append] at hb
  rcases hb with ((h | h) | h) | h <;> exact leBytes_lt 4 _ b h

/-! ### step1 and the accumulator invariant -/

theorem step1_eq (ctx : Context) (b : Nat) :
    step1 ctx b =
      if ctx.current_chunk.length + 1 = ctx.chunk_size
      then flushChunk { ctx with current_chunk := ctx.current_chunk ++ [b] }
      else { ctx with current_chunk := ctx.current_chunk ++ [b] } := by
  simp [step1]

theorem flushChunk_chunk_size (ctx : Context) : (flushChunk ctx).chunk_size = ctx.chunk_size := rfl

theorem step1_chunk_size (ctx : Context) (b : Nat) : (step1 ctx b).chunk_size = ctx.chunk_size := by
  rw [step1_eq]
  split <;> rfl

theorem step1_total_bytes (ctx : Context) (b : Nat) :
    (step1 ctx b).total_bytes = ctx.total_bytes := by
  rw [step1_eq]
  split <;> rfl

theorem step1_inv {ctx : Context} (h : Inv ctx) (b : Nat) : Inv (step1 ctx b) := by
  obtain ⟨h0, hlt⟩ := h
  rw [step1_eq]
  split
  · exact ⟨h0, h0⟩
  · next hne =>
      refine ⟨h0, ?_⟩
      simp only [List.length_append, List.length_cons, List.length_nil]
      omega

theorem step1_fill {ctx : Context} (h : Inv ctx) (b : Nat) :
    (step1 ctx b).chunk_count * ctx.chunk_size + (step1 ctx b).current_chunk.length
      = ctx.chunk_count * ctx.chunk_size + ctx.current_chunk.length + 1 := by
  obtain ⟨h0, hlt⟩ := h
  rw [step1_eq]
  split
  · next hfull =>
      simp only [flushChunk, List.length_nil, Nat.succ_mul, List.length_append]
      omega
  · next hne =>
      simp only [List.length_append, List.length_cons, List.length_nil]
      omega

theorem step1_combined {ctx : Context}
    (h : ctx.combined_hashes.length = ctx.chunk_count * 16) (b : Nat) :
    (step1 ctx b).combined_hashes.length = (step1 ctx b).chunk_count * 16 := by
  rw [step1_eq]
  split
  · simp [flushChunk, md5Bytes_length, h, Nat.succ_mul]
  · simpa using h

/-! ### Filling a chunk byte by byte -/

theorem foldl_step1_no_flush (xs : List Nat) :
    ∀ ctx : Context, ctx.current_chunk.length + xs.length < ctx.chunk_size →
      List.foldl step1 ctx xs = { ctx with current_chunk := ctx.current_chunk ++ xs } := by
  induction xs with
  | nil => intro ctx h; simp
  | cons x rest ih =>
      intro ctx h
      simp only [List.length_cons] at h
      rw [List.foldl_cons, step1_eq, if_neg (by omega)]
      rw [ih _ (by simp only [List.length_append, List.length_cons, List.length_nil]; omega)]
      simp

theorem foldl_step1_flush (xs : List Nat) :
    ∀ ctx : Context, xs ≠ [] → ctx.current_chunk.length + xs.length = ctx.chunk_size →
      List.foldl step1 ctx xs = flushChunk { ctx with current_chunk := ctx.current_chunk ++ xs } := by
  induction xs with
  | nil => intro ctx hne h; exact absurd rfl hne
  | cons x rest ih =>
      intro ctx _ h
      simp only [List.length_cons, List.length_nil] at h
      rw [List.foldl_cons, step1_eq]
      cases rest with
      | nil =>
          rw [if_pos (by simp only [List.length_nil] at h; omega)]
          simp
      | cons y t =>
          rw [if_neg (by simp only [List.length_cons] at h ⊢; omega)]
          rw [ih _ (by simp) (by simp only [List.length_append, List.length_cons, List.length_nil] at h ⊢; omega)]
          simp

/-! ### The consume loop terminates and equals the byte-at-a-time fold -/

theorem consumeLoop_eq_foldl :
    ∀ (fuel : Nat) (ctx : Context) (rem : List Nat), Inv ctx → rem.length ≤ fuel →
      consumeLoop fuel ctx rem = some (List.foldl step1 ctx rem) := by
  intro fuel
  induction fuel with
  | zero =>
      intro ctx rem _ hf
      cases rem with
      | nil => rfl
      | cons b rest => simp at hf
  | succ fuel ih =>
      intro ctx rem hI hf
      cases rem with
      | nil => rfl
      | cons b rest =>
          obtain ⟨h0, hlt⟩ := hI
          simp only [consumeLoop]
          rcases Nat.lt_or_ge (b :: rest).length (ctx.chunk_size - ctx.current_chunk.length) with hc | hc
          · rw [Nat.min_eq_left (Nat.le_of_lt hc), List.take_length, List.drop_length]
            rw [if_neg (by
              simp only [List.length_append, List.length_cons] at hc ⊢
              omega)]
            rw [consumeLoop]
            rw [foldl_step1_no_flush _ _ (by
              simp only [List.length_cons] at hc ⊢
              omega)]
          · rw [Nat.min_eq_right hc]
            have htlen : (List.take (ctx.chunk_size - ctx.current_chunk.length) (b :: rest)).length
                = ctx.chunk_size - ctx.current_chunk.length := by
              rw [List.length_take]
              exact Nat.min_eq_left hc
            rw [if_pos (by
              simp only [List.length_append, htlen]
              omega)]
            have hInvF : Inv (flushChunk { ctx with
                current_chunk := ctx.current_chunk
                  ++ List.take (ctx.chunk_size - ctx.current_chunk.length) (b :: rest) }) :=
              ⟨h0, h0⟩
            have hdlen : (List.drop (ctx.chunk_size - ctx.current_chunk.length) (b :: rest)).length
                ≤ fuel := by
              simp only [List.length_drop, List.length_cons] at hf ⊢
              omega
            have hsplit : List.foldl step1 ctx (b :: rest)
                = List.foldl step1
                    (flushChunk { ctx with
                      current_chunk := ctx.current_chunk
                        ++ List.take (ctx.chunk_size - ctx.current_chunk.length) (b :: rest) })
                    (List.drop (ctx.chunk_size - ctx.current_chunk.length) (b :: rest)) := by
              have hinner : List.foldl step1 ctx
                    (List.take (ctx.chunk_size - ctx.current_chunk.length) (b :: rest))
                  = flushChunk { ctx with
                      current_chunk := ctx.current_chunk
                        ++ List.take (ctx.chunk_size - ctx.current_chunk.length) (b :: rest) } :=
                foldl_step1_flush _ _
                  (by
                    intro hnil
                    rw [hnil] at htlen
                    simp only [List.length_nil] at htlen
                    omega)
                  (by rw [htlen]; omega)
              conv_lhs => rw [← List.take_append_drop (ctx.chunk_size - ctx.current_chunk.length) (b :: rest)]
              rw [List.foldl_append, hinner]
            rw [hsplit]
            exact ih _ _ hInvF hdlen

/-! ### consume as a fold, and its algebra -/

theorem consume_eq_foldl {ctx : Context} (h : Inv ctx) (data : List Nat) :
    ctx.consume data
      = List.foldl step1 { ctx with total_bytes := ctx.total_bytes + data.length } data := by
  have hloop := consumeLoop_eq_foldl data.length
    { ctx with total_bytes := ctx.total_bytes + data.length } data ⟨h.1, h.2⟩ (Nat.le_refl _)
  simp only [Context.consume]
  rw [hloop]
  rfl

theorem foldl_step1_inv {ctx : Context} (h : Inv ctx) (data : List Nat) :
    Inv (List.foldl step1 ctx data) := by
  induction data generalizing ctx with
  | nil => exact h
  | cons b rest ih => exact ih (step1_inv h b)

theorem foldl_step1_chunk_size (data : List Nat) :
    ∀ ctx : Context, (List.foldl step1 ctx data).chunk_size = ctx.chunk_size := by
  induction data with
  | nil => intro ctx; rfl
  | cons b rest ih => intro ctx; rw [List.foldl_cons, ih, step1_chunk_size]

theorem foldl_step1_total_bytes (data : List Nat) :
    ∀ ctx : Context, (List.foldl step1 ctx data).total_bytes = ctx.total_bytes := by
  induction data with
  | nil => intro ctx; rfl
  | cons b rest ih => intro ctx; rw [List.foldl_cons, ih, step1_total_bytes]

theorem step1_total_set (ctx : Context) (t b : Nat) :
    step1 { ctx with total_bytes := t } b = { step1 ctx b with total_bytes := t } := by
  rw [step1_eq, step1_eq]
  split
  · rfl
  · rfl

theorem foldl_step1_total_set (data : List Nat) :
    ∀ (ctx : Context) (t : Nat),
      List.foldl step1 { ctx with total_bytes := t } data
        = { List.foldl step1 ctx data with total_bytes := t } := by
  induction data with
  | nil => intro ctx t; rfl
  | cons b rest ih => intro ctx t; rw [List.foldl_cons, step1_total_set, ih, List.foldl_cons]

theorem consume_inv {ctx : Context} (h : Inv ctx) (data : List Nat) :
    Inv (ctx.consume data) := by
  rw [consume_eq_foldl h]
  exact @foldl_step1_inv { ctx with total_bytes := ctx.total_bytes + data.length } ⟨h.1, h.2⟩ data

theorem consume_chunk_size {ctx : Context} (h : Inv ctx) (data : List Nat) :
    (ctx.consume data).chunk_size = ctx.chunk_size := by
  rw [consume_eq_foldl h, foldl_step1_chunk_size]

theorem consume_append {ctx : Context} (h : Inv ctx) (a b : List Nat) :
    ctx.consume (a ++ b) = (ctx.consume a).consume b := by
  have ha := consume_inv h a
  rw [consume_eq_foldl h (a ++ b), consume_eq_foldl ha b, consume_eq_foldl h a]
  simp only [foldl_step1_total_set, foldl_step1_total_bytes, List.foldl_append,
    List.length_append, Nat.add_assoc]

theorem consume_nil (ctx : Context) : ctx.consume [] = ctx := rfl

theorem runConsumes_eq_consume_flatten {ctx : Context} (h : Inv ctx) (calls : List (List Nat)) :
    runConsumes ctx calls = ctx.consume calls.flatten := by
  induction calls generalizing ctx with
  | nil => simp [runConsumes, consume_nil]
  | cons a rest ih =>
      show runConsumes (ctx.consume a) rest = ctx.consume ((a :: rest).flatten)
      rw [ih (consume_inv h a), List.flatten_cons, consume_append h]

/-! ### Divergence of the consume loop when the chunk size is zero -/

theorem consumeLoop_zero_chunk_size :
    ∀ (fuel : Nat) (ctx : Context), ctx.chunk_size = 0 → ctx.current_chunk = [] →
      ∀ (b : Nat) (rest : List Nat), consumeLoop fuel ctx (b :: rest) = none := by
  intro fuel
  induction fuel with
  | zero => intro ctx _ _ b rest; rfl
  | succ fuel ih =>
      intro ctx h0 hcur b rest
      simp only [consumeLoop, h0, hcur, List.length_nil, Nat.sub_zero, Nat.zero_sub,
        Nat.min_zero, List.take_zero, List.append_nil, List.nil_append, List.drop_zero,
        if_pos]
      exact ih _ (by simp [flushChunk, h0]) rfl b rest

/-! ### Chunk counting -/

theorem foldl_step1_fill (data : List Nat) :
    ∀ ctx : Context, Inv ctx →
      (List.foldl step1 ctx data).chunk_count * ctx.chunk_size
          + (List.foldl step1 ctx data).current_chunk.length
        = ctx.chunk_count * ctx.chunk_size + ctx.current_chunk.length + data.length := by
  induction data with
  | nil => intro ctx _; rfl
  | cons b rest ih =>
      intro ctx h
      rw [List.foldl_cons]
      have hstep := step1_fill h b
      have hrec := ih (step1 ctx b) (step1_inv h b)
      rw [step1_chunk_size] at hrec
      simp only [List.length_cons]
      omega

theorem foldl_step1_combined (data : List Nat) :
    ∀ ctx : Context, ctx.combined_hashes.length = ctx.chunk_count * 16 →
      (List.foldl step1 ctx data).combined_hashes.length
        = (List.foldl step1 ctx data).chunk_count * 16 := by
  induction data with
  | nil => intro ctx h; exact h
  | cons b rest ih =>
      intro ctx h
      rw [List.foldl_cons]
      exact ih _ (step1_combined h b)

theorem div_mod_of_fill {q r L C : Nat} (hC : 0 < C) (hfill : q * C + r = L) (hr : r < C) :
    q = L / C ∧ r = L % C := by
  subst hfill
  constructor
  · rw [Nat.mul_comm, Nat.add_comm, Nat.add_mul_div_left _ _ hC, Nat.div_eq_of_lt hr]
    omega
  · rw [Nat.mul_comm, Nat.add_comm, Nat.add_mul_mod_self_left, Nat.mod_eq_of_lt hr]

theorem foldl_fresh_count {ctx : Context} (hC : 0 < ctx.chunk_size)
    (hcur : ctx.current_chunk = []) (hcount : ctx.chunk_count = 0) (data : List Nat) :
    (List.foldl step1 ctx data).chunk_count = data.length / ctx.chunk_size ∧
      (List.foldl step1 ctx data).current_chunk.length = data.length % ctx.chunk_size := by
  have hI : Inv ctx := ⟨hC, by rw [hcur]; exact hC⟩
  have hfill := foldl_step1_fill data ctx hI
  rw [hcur, hcount] at hfill
  simp only [List.length_nil, Nat.zero_mul, Nat.zero_add, Nat.add_zero] at hfill
  have hrlt := (foldl_step1_inv hI data).2
  rw [foldl_step1_chunk_size] at hrlt
  obtain ⟨hq, hr⟩ := div_mod_of_fill hC hfill hrlt
  exact ⟨hq, hr⟩

theorem consume_fresh_count (C : Nat) (hC : 0 < C) (data : List Nat) :
    ((Context.with_chunk_size C).consume data).chunk_count = data.length / C ∧
      ((Context.with_chunk_size C).consume data).current_chunk.length = data.length % C := by
  have hI : Inv (Context.with_chunk_size C) := ⟨hC, hC⟩
  rw [consume_eq_foldl hI data]
  exact foldl_fresh_count hC rfl rfl data

/-! ### finalize -/

theorem finalize_parts (ctx : Context) :
    (ctx.finalize).parts = ctx.chunk_count + (if ctx.current_chunk.isEmpty then 0 else 1) := by
  unfold Context.finalize
  split
  · rfl
  · rfl

theorem finalize_hash_md5 (ctx : Context) : ∃ m : List Nat, (ctx.finalize).hash = md5Bytes m :=
  ⟨_, rfl⟩

/-- Ceiling division, written as in the spec: the least k with L ≤ k * C. -/
theorem div_ceil_eq (L C : Nat) (hC : 0 < C) :
    L / C + (if L % C = 0 then 0 else 1) = (L + C - 1) / C := by
  rcases Nat.eq_zero_or_pos (L % C) with h | h
  · rw [if_pos h]
    obtain ⟨q, hq⟩ := Nat.dvd_of_mod_eq_zero h
    subst hq
    have h1 : C * q + C - 1 = C * q + (C - 1) := by omega
    rw [h1, Nat.mul_add_div hC, Nat.div_eq_of_lt (show C - 1 < C by omega),
      Nat.mul_div_cancel_left _ hC]
  · rw [if_neg (by omega)]
    have hdm := Nat.div_add_mod L C
    have hmlt : L % C < C := Nat.mod_lt _ hC
    have h1 : L + C - 1 = C * (L / C) + (C + (L % C - 1)) := by omega
    rw [h1, Nat.mul_add_div hC]
    have h2 : C + (L % C - 1) = (L % C - 1) + C := by omega
    rw [h2, Nat.add_div_right _ hC, Nat.div_eq_of_lt (show L % C - 1 < C by omega)]

/-! ### Hex and decimal character facts -/

theorem isDigitChar_digitChar {n : Nat} (h : n < 10) : isDigitChar (digitChar n) = true := by
  interval_cases n <;> decide

theorem isLowerHexChar_hexDigitLower {n : Nat} (h : n < 16) :
    isLowerHexChar (hexDigitLower n) = true := by
  interval_cases n <;> decide

theorem isUpperHexChar_hexDigitUpper {n : Nat} (h : n < 16) :
    isUpperHexChar (hexDigitUpper n) = true := by
  interval_cases n <;> decide

theorem byteHexLower_all {b : Nat} (h : b < 256) :
    (byteHexLower b).all isLowerHexChar = true := by
  simp only [byteHexLower, List.all_cons, List.all_nil, Bool.and_true, Bool.and_eq_true]
  exact ⟨isLowerHexChar_hexDigitLower (by omega),
    isLowerHexChar_hexDigitLower (Nat.mod_lt _ (by omega))⟩

theorem byteHexUpper_all {b : Nat} (h : b < 256) :
    (byteHexUpper b).all isUpperHexChar = true := by
  simp only [byteHexUpper, List.all_cons, List.all_nil, Bool.and_true, Bool.and_eq_true]
  exact ⟨isUpperHexChar_hexDigitUpper (by omega),
    isUpperHexChar_hexDigitUpper (Nat.mod_lt _ (by omega))⟩

theorem hexcat_all_lower {l : List Nat} (h : ∀ b ∈ l, b < 256) :
    ((l.map byteHexLower).flatten).all isLowerHexChar = true := by
  induction l with
  | nil => rfl
  | cons b rest ih =>
      simp only [List.map_cons, List.flatten_cons, List.all_append, Bool.and_eq_true]
      exact ⟨byteHexLower_all (h b (by simp)), ih (fun x hx => h x (by simp [hx]))⟩

theorem hexcat_all_upper {l : List Nat} (h : ∀ b ∈ l, b < 256) :
    ((l.map byteHexUpper).flatten).all isUpperHexChar = true := by
  induction l with
  | nil => rfl
  | cons b rest ih =>
      simp only [List.map_cons, List.flatten_cons, List.all_append, Bool.and_eq_true]
      exact ⟨byteHexUpper_all (h b (by simp)), ih (fun x hx => h x (by simp [hx]))⟩

theorem hexcat_length_lower (l : List Nat) :
    ((l.map byteHexLower).flatten).length = 2 * l.length := by
  induction l with
  | nil => rfl
  | cons b rest ih =>
      simp only [List.map_cons, List.flatten_cons, List.length_append, ih, byteHexLower,
        List.length_cons, List.length_nil]
      omega

theorem hexcat_length_upper (l : List Nat) :
    ((l.map byteHexUpper).flatten).length = 2 * l.length := by
  induction l with
  | nil => rfl
  | cons b rest ih =>
      simp only [List.map_cons, List.flatten_cons, List.length_append, ih, byteHexUpper,
        List.length_cons, List.length_nil]
      omega

theorem natDecimalAux_all_digits : ∀ fuel n : Nat, (natDecimalAux fuel n).all isDigitChar = true := by
  intro fuel
  induction fuel with
  | zero =>
      intro n
      simp only [natDecimalAux, List.all_cons, List.all_nil, Bool.and_true]
      exact isDigitChar_digitChar (Nat.mod_lt _ (by omega))
  | succ fuel ih =>
      intro n
      simp only [natDecimalAux]
      split
      · next h =>
          simp only [List.all_cons, List.all_nil, Bool.and_true]
          exact isDigitChar_digitChar h
      · next h =>
          simp only [List.all_append, List.all_cons, List.all_nil, Bool.and_true, Bool.and_eq_true]
          exact ⟨ih _, isDigitChar_digitChar (Nat.mod_lt _ (by omega))⟩

theorem decimalNoZero_append_digit {cs : List Char} {d : Char}
    (h : decimalNoZero cs = true) (hd : isDigitChar d = true) :
    decimalNoZero (cs ++ [d]) = true := by
  cases cs with
  | nil => simp [decimalNoZero] at h
  | cons c rest =>
      simp only [List.cons_append, decimalNoZero, Bool.and_eq_true, List.all_append,
        List.all_cons, List.all_nil, Bool.and_true] at h ⊢
      exact ⟨h.1, h.2, hd⟩

theorem natDecimalAux_noZero :
    ∀ fuel n : Nat, n ≤ fuel + 9 → 1 ≤ n → decimalNoZero (natDecimalAux fuel n) = true := by
  intro fuel
  induction fuel with
  | zero =>
      intro n hle h1
      show decimalNoZero [digitChar (n % 10)] = true
      rw [Nat.mod_eq_of_lt (by omega)]
      interval_cases n <;> decide
  | succ fuel ih =>
      intro n hle h1
      simp only [natDecimalAux]
      split
      · next h => interval_cases n <;> decide
      · next h =>
          exact decimalNoZero_append_digit
            (ih (n / 10) (by omega) (by omega))
            (isDigitChar_digitChar (Nat.mod_lt _ (by omega)))

theorem natDecimal_noZero {n : Nat} (h : 1 ≤ n) : decimalNoZero (natDecimal n) = true :=
  natDecimalAux_noZero n n (by omega) h

theorem decimalNoZero_canonical {cs : List Char} (h : decimalNoZero cs = true) :
    decimalCanonical cs = true := by
  cases cs with
  | nil => simp [decimalNoZero] at h
  | cons c rest =>
      simp only [decimalNoZero, Bool.and_eq_true, decide_eq_true_eq] at h
      obtain ⟨⟨h1, h2⟩, h3⟩ := h
      have hc : ¬ (c = '0') := by
        intro hc
        subst hc
        exact absurd h1 (by decide)
      simp only [decimalCanonical, if_neg hc, Bool.and_eq_true, decide_eq_true_eq]
      exact ⟨⟨h1, h2⟩, h3⟩

theorem decimalCanonical_natDecimal (n : Nat) : decimalCanonical (natDecimal n) = true := by
  rcases Nat.eq_zero_or_pos n with h | h
  · subst h
    decide
  · exact decimalNoZero_canonical (natDecimal_noZero h)

/-! ### The rendered digest matches the ETag shape -/

theorem matches_shape_of_md5 {d : Digest} {m : List Nat} (hm : d.hash = md5Bytes m) :
    matchesEtagLower d.toLowerHex = true ∧ matchesEtagUpper d.toUpperHex = true := by
  have hlt : ∀ b ∈ d.hash, b < 256 := by rw [hm]; exact md5Bytes_lt m
  have h16 : d.hash.length = 16 := by rw [hm]; exact md5Bytes_length m
  have h32l : ((d.hash.map byteHexLower).flatten).length = 32 := by
    rw [hexcat_length_lower, h16]
  have h32u : ((d.hash.map byteHexUpper).flatten).length = 32 := by
    rw [hexcat_length_upper, h16]
  constructor
  · show matchesEtagShape isLowerHexChar decimalCanonical
      (String.mk ((d.hash.map byteHexLower).flatten ++ '-' :: natDecimal d.parts)) = true
    simp only [matchesEtagShape, List.take_left' h32l, List.drop_left' h32l,
      hexcat_all_lower hlt, decimalCanonical_natDecimal, Bool.and_self]
  · show matchesEtagShape isUpperHexChar decimalCanonical
      (String.mk ((d.hash.map byteHexUpper).flatten ++ '-' :: natDecimal d.parts)) = true
    simp only [matchesEtagShape, List.take_left' h32u, List.drop_left' h32u,
      hexcat_all_upper hlt, decimalCanonical_natDecimal, Bool.and_self]

/-! ### Known vectors checkable in-kernel (the two short doctest inputs) -/

set_option maxRecDepth 100000 in
/-- The library doctest: compute(b"hello") renders as
62109206880d38a4010a98e11243924a-1. -/
theorem compute_hello_vector :
    (compute [104, 101, 108, 108, 111]).toLowerHex = "62109206880d38a4010a98e11243924a-1" := by
  decide

set_option maxRecDepth 100000 in
/-- The second test vector: compute of the 6 bytes of "hello" followed by a
newline renders as 6a6d8d4533507d490ab007dfe8314ab7-1. -/
theorem compute_hello_newline_vector :
    (compute [104, 101, 108, 108, 111, 10]).toLowerHex = "6a6d8d4533507d490ab007dfe8314ab7-1" := by
  decide

/-! ### The claims -/

/-- C1 (counterexample): the claim says the parts count after finalize is
max(1, ceil(L / C)), hence 1 for zero-byte input; but finalize only hashes
the final chunk when current_chunk is non-empty, so consuming nothing with
chunk size 1 yields parts = 0, not 1. -/
theorem parts_count_zero_input_cex :
    ((runConsumes (Context.with_chunk_size 1) []).finalize).parts
      ≠ max 1 (((([] : List (List Nat)).flatten).length + 1 - 1) / 1) := by
  decide

/-- C1 (amended): for chunk size C > 0 and any splitting of the input into
consume calls, the parts count of the digest returned by finalize is
ceil(L / C) where L is the total input length; in particular it is 0, not
1, for zero-byte input. -/
theorem parts_count_eq_ceil (C : Nat) (hC : 0 < C) (calls : List (List Nat)) :
    ((runConsumes (Context.with_chunk_size C) calls).finalize).parts
      = (calls.flatten.length + C - 1) / C := by
  have hI : Inv (Context.with_chunk_size C) := ⟨hC, hC⟩
  rw [runConsumes_eq_consume_flatten hI]
  obtain ⟨hq, hr⟩ := consume_fresh_count C hC calls.flatten
  rw [finalize_parts, hq, ← div_ceil_eq _ _ hC]
  rcases hcc : ((Context.with_chunk_size C).consume calls.flatten).current_chunk with _ | ⟨x, xs⟩
  · rw [hcc] at hr
    simp only [List.length_nil] at hr
    rw [if_pos (show calls.flatten.length % C = 0 by omega),
      if_pos (show ([] : List Nat).isEmpty = true from rfl)]
  · rw [hcc] at hr
    simp only [List.length_cons] at hr
    rw [if_neg (show ¬ calls.flatten.length % C = 0 by omega),
      if_neg (show ¬ ((x :: xs).isEmpty = true) by simp)]

/-- C1 (witness): the amended claim at C = 2 and input split [[1, 2, 3]]. -/
theorem parts_count_eq_ceil_witness :
    ((runConsumes (Context.with_chunk_size 2) [[1, 2, 3]]).finalize).parts
      = (([[1, 2, 3]] : List (List Nat)).flatten.length + 2 - 1) / 2 :=
  parts_count_eq_ceil 2 (by decide) [[1, 2, 3]]

/-- C2: the claim says chunk size 0 is rejected at construction; in the
code with_chunk_size 0 constructs a usable accumulator (its chunk_size
field is 0), and the consume loop on one byte of input then makes no
progress: it flushes an empty chunk and retries the same remaining input,
so it fails to finish within any fuel bound — the Rust loop never
terminates. -/
theorem chunk_size_zero_accepted_loops :
    (Context.with_chunk_size 0).chunk_size = 0 ∧
      ∀ fuel : Nat,
        consumeLoop fuel { Context.with_chunk_size 0 with total_bytes := 1 } [97] = none := by
  refine ⟨rfl, fun fuel => ?_⟩
  exact consumeLoop_zero_chunk_size fuel _ rfl rfl 97 []

/-- C3: for every chunk size C > 0, any two splittings of the same byte
sequence into consume calls yield identical digests from finalize. -/
theorem chunking_invariance (C : Nat) (hC : 0 < C) (calls calls' : List (List Nat))
    (h : calls.flatten = calls'.flatten) :
    (runConsumes (Context.with_chunk_size C) calls).finalize
      = (runConsumes (Context.with_chunk_size C) calls').finalize := by
  have hI : Inv (Context.with_chunk_size C) := ⟨hC, hC⟩
  rw [runConsumes_eq_consume_flatten hI, runConsumes_eq_consume_flatten hI, h]

/-- C3 (witness): the two splittings [1] + [2, 3] and [1, 2] + [3] of the
same three bytes at chunk size 2. -/
theorem chunking_invariance_witness :
    (runConsumes (Context.with_chunk_size 2) [[1], [2, 3]]).finalize
      = (runConsumes (Context.with_chunk_size 2) [[1, 2], [3]]).finalize :=
  chunking_invariance 2 (by decide) [[1], [2, 3]] [[1, 2], [3]] rfl

/-- C5: for chunk size C > 0 the invariant combined_hashes.length =
chunk_count * 16 and current_chunk.length < chunk_size holds after
construction and is preserved by every consume call. -/
theorem accumulator_invariant (C : Nat) (hC : 0 < C) :
    chunkInv (Context.with_chunk_size C) ∧
      ∀ ctx : Context, ctx.chunk_size = C → chunkInv ctx →
        ∀ data : List Nat, chunkInv (ctx.consume data) := by
  refine ⟨⟨rfl, hC⟩, fun ctx hsz hci data => ?_⟩
  have hI : Inv ctx := ⟨by rw [hsz]; exact hC, hci.2⟩
  constructor
  · rw [consume_eq_foldl hI]
    exact foldl_step1_combined data _ hci.1
  · exact (consume_inv hI data).2

/-- C5 (witness): the invariant at C = 4, freshly constructed and after
consuming five bytes. -/
theorem accumulator_invariant_witness :
    chunkInv (Context.with_chunk_size 4) ∧
      chunkInv ((Context.with_chunk_size 4).consume [9, 9, 9, 9, 9]) :=
  ⟨(accumulator_invariant 4 (by decide)).1,
    (accumulator_invariant 4 (by decide)).2 (Context.with_chunk_size 4) rfl
      (accumulator_invariant 4 (by decide)).1 [9, 9, 9, 9, 9]⟩

/-- C6: input of length exactly k * C with k ≥ 1 yields exactly k parts:
finalize appends no trailing empty chunk because its partial-chunk step
requires current_chunk to be non-empty. -/
theorem boundary_exact_parts (C k : Nat) (hC : 0 < C) (_hk : 1 ≤ k) (data : List Nat)
    (hlen : data.length = k * C) :
    (((Context.with_chunk_size C).consume data).finalize).parts = k := by
  obtain ⟨hq, hr⟩ := consume_fresh_count C hC data
  rw [finalize_parts, hq, hlen]
  have hmod : k * C % C = 0 := Nat.mul_mod_left k C
  have hdiv : k * C / C = k := by rw [Nat.mul_comm, Nat.mul_div_cancel_left _ hC]
  have hcur : ((Context.with_chunk_size C).consume data).current_chunk = [] := by
    refine List.length_eq_zero.mp ?_
    rw [hr, hlen, hmod]
  rw [hdiv, hcur, List.isEmpty_nil, if_pos rfl]
  omega

/-- C6 (witness): four bytes at chunk size 2 produce exactly 2 parts. -/
theorem boundary_exact_parts_witness :
    (((Context.with_chunk_size 2).consume [7, 8, 9, 10]).finalize).parts = 2 :=
  boundary_exact_parts 2 2 (by decide) (by decide) [7, 8, 9, 10] rfl

set_option maxRecDepth 100000 in
/-- C7 (counterexample): the claim says every finalize digest renders as
32 hex digits, a dash, and a decimal count matching [1-9][0-9]*; but
finalizing a fresh accumulator (zero-byte input) yields parts = 0 and the
rendered string ends in -0, which that regex rejects. -/
theorem digest_format_zero_parts_cex :
    matchesEtagLowerSpec ((Context.with_chunk_size 1).finalize).toLowerHex = false := by
  decide

/-- C7 (amended): every finalize digest has 16 hash bytes and renders,
in both cases, as exactly two hex digits per byte (32 characters)
followed by a dash and the canonical decimal parts count, matching the
regex with decimal tail (0|[1-9][0-9]*); the [1-9][0-9]* form of the
claim holds except for the zero-byte input whose parts count is 0. -/
theorem digest_format (ctx : Context) :
    (ctx.finalize).hash.length = 16 ∧
      (ctx.finalize).toLowerHex.data
        = ((ctx.finalize).hash.map byteHexLower).flatten
            ++ '-' :: natDecimal (ctx.finalize).parts ∧
      (ctx.finalize).toUpperHex.data
        = ((ctx.finalize).hash.map byteHexUpper).flatten
            ++ '-' :: natDecimal (ctx.finalize).parts ∧
      matchesEtagLower (ctx.finalize).toLowerHex = true ∧
      matchesEtagUpper (ctx.finalize).toUpperHex = true := by
  obtain ⟨m, hm⟩ := finalize_hash_md5 ctx
  obtain ⟨hl, hu⟩ := matches_shape_of_md5 hm
  exact ⟨by rw [hm]; exact md5Bytes_length m, rfl, rfl, hl, hu⟩

/-- C8: the capacity hint only pre-sizes an allocation; an accumulator
built with with_capacity behaves identically to one built with
with_chunk_size under any sequence of consume calls. -/
theorem capacity_hint_no_effect (C hint : Nat) (_hC : 0 < C) (calls : List (List Nat)) :
    (runConsumes (Context.with_capacity C hint) calls).finalize
      = (runConsumes (Context.with_chunk_size C) calls).finalize := rfl

/-- C8 (witness): chunk size 1 and hint 5 on one consume call. -/
theorem capacity_hint_no_effect_witness :
    (runConsumes (Context.with_capacity 1 5) [[1]]).finalize
      = (runConsumes (Context.with_chunk_size 1) [[1]]).finalize :=
  capacity_hint_no_effect 1 5 (by decide) [[1]]

/-- C9: the write sink is a pure wrapper over consume — write consumes
the buffer, reports the full buffer length, and never errs; flush
succeeds and changes nothing; folding writes gives the same digest as
folding consumes. -/
theorem write_sink_refines (ctx : Context) (buf : List Nat) (calls : List (List Nat)) :
    (ctx.write buf).1 = ctx.consume buf ∧
      (ctx.write buf).2 = Except.ok buf.length ∧
      ctx.io_flush = (ctx, Except.ok ()) ∧
      (runWrites ctx calls).finalize = (runConsumes ctx calls).finalize :=
  ⟨rfl, rfl, rfl, rfl⟩

/-- C10: on any accumulator with positive chunk size and partial chunk
strictly below it, the consume loop finishes within data.length
iterations, since each iteration transfers at least one byte. -/
theorem consume_terminates (ctx : Context) (data : List Nat)
    (h1 : 1 ≤ ctx.chunk_size) (h2 : ctx.current_chunk.length < ctx.chunk_size) :
    (consumeLoop data.length
        { ctx with total_bytes := ctx.total_bytes + data.length } data).isSome = true := by
  have hloop := consumeLoop_eq_foldl data.length
    { ctx with total_bytes := ctx.total_bytes + data.length } data ⟨h1, h2⟩ (Nat.le_refl _)
  rw [hloop]
  rfl

/-- C10 (witness): the loop of consume finishes on three bytes at chunk
size 2. -/
theorem consume_terminates_witness :
    (consumeLoop ([1, 2, 3] : List Nat).length
        { Context.with_chunk_size 2 with
          total_bytes := (Context.with_chunk_size 2).total_bytes
            + ([1, 2, 3] : List Nat).length } [1, 2, 3]).isSome = true :=
  consume_terminates (Context.with_chunk_size 2) [1, 2, 3] (by decide) (by decide)

end S3Etag
